import Mathlib

/-
Verification of the curve-approximation cache of the fornjot geometry
kernel (crates/fj-core/src/algorithms/approx/curve/cache.rs), over a
shallow embedding in Lean 4.

Curve parameters and embedding-space coordinates are modelled as
rationals.  The `CurveApproxCache.get` and `CurveApproxCache.insert`
functions are translated from the source file cache.rs; the value types
and the `merge` / `make_subset` / `normalize` / `reverse` operations of
`CurveBoundary`, `CurveApproxSegment` and `CurveApprox` are not part of
the provided sources, so they are modelled from the specification
(spec.md sections 3 and 4.2/4.3), as noted on each definition.
-/

namespace Fornjot

/-- An approximation point: a 1-d curve-parameter position (`localForm`)
together with the corresponding position in 3-d embedding space
(`globalForm`).  Modelled from the spec: "ApproxPoint: (local: Param1D,
global: Point3D). Immutable once produced. Equality is by value." -/
structure ApproxPoint where
  localForm : Rat
  globalForm : Rat × Rat × Rat
deriving DecidableEq, Repr

/-- A curve boundary: an ordered pair of curve-parameter values, possibly
given in either direction.  Modelled from the spec: "Boundary
⟨start, end⟩: two curve-parameter coordinates (1-D, real-valued)." -/
structure CurveBoundary where
  start : Rat
  stop : Rat
deriving DecidableEq, Repr

/-- Modelled from the spec: "reverse() swaps the two values." -/
def CurveBoundary.reverse (b : CurveBoundary) : CurveBoundary :=
  ⟨b.stop, b.start⟩

/-- Modelled from the spec: "Normalized iff start < end." -/
def CurveBoundary.isNormalized (b : CurveBoundary) : Bool :=
  decide (b.start < b.stop)

/-- Modelled from the spec (section 4.1, get step 1: "Compute the
normalized form of boundary"): the normalized form of a boundary. -/
def CurveBoundary.normalize (b : CurveBoundary) : CurveBoundary :=
  if b.isNormalized then b else b.reverse

/-- Modelled from the spec (section 4.2, merge): whether two normalized
boundaries, read as closed parameter intervals, overlap or are adjacent
(touch at an endpoint). -/
def CurveBoundary.overlapsOrTouches (a b : CurveBoundary) : Bool :=
  decide (a.start ≤ b.stop) && decide (b.start ≤ a.stop)

/-- An approximated segment of a curve: a boundary plus the points lying
inside it.  Modelled from the spec: "ApproxSegment: (boundary: Boundary,
points: OrderedSequence⟨ApproxPoint⟩)." -/
structure CurveApproxSegment where
  boundary : CurveBoundary
  points : List ApproxPoint
deriving DecidableEq, Repr

/-- Modelled from the spec: "reverse(): unconditionally swap boundary
endpoints and reverse points." -/
def CurveApproxSegment.reverse (s : CurveApproxSegment) : CurveApproxSegment :=
  ⟨s.boundary.reverse, s.points.reverse⟩

/-- Modelled from the spec: "normalize(): if not boundary.is_normalized,
swap boundary endpoints and reverse points." -/
def CurveApproxSegment.normalize (s : CurveApproxSegment) : CurveApproxSegment :=
  if s.boundary.isNormalized then s else s.reverse

/-- The accumulated approximation of one curve: its list of segments,
kept sorted ascending by boundary start.  Modelled from the spec:
"CurveApproximation: segments: OrderedSequence⟨ApproxSegment⟩." -/
structure CurveApprox where
  segments : List CurveApproxSegment
deriving DecidableEq, Repr

/-- Modelled from the spec: "reverse() (on a whole CurveApproximation):
reverses the segment order and reverses each segment." -/
def CurveApprox.reverse (a : CurveApprox) : CurveApprox :=
  ⟨(a.segments.map CurveApproxSegment.reverse).reverse⟩

/-- Modelled from the spec (section 4.2, merge: "insert new_segment into
the sorted segment list at its correct position"): insertion into a list
sorted ascending by boundary start. -/
def insertSegmentSorted (s : CurveApproxSegment) :
    List CurveApproxSegment → List CurveApproxSegment
  | [] => [s]
  | t :: rest =>
      if s.boundary.start ≤ t.boundary.start then s :: t :: rest
      else t :: insertSegmentSorted s rest

/-- Modelled from the spec (section 4.2, merge: points "are spliced in at
their correct sorted position"): insertion of one point into a point list
ascending by parameter, at its sorted position. -/
def insertPointSorted (p : ApproxPoint) : List ApproxPoint → List ApproxPoint
  | [] => [p]
  | b :: bs =>
      if p.localForm < b.localForm then p :: b :: bs
      else b :: insertPointSorted p bs

/-- Modelled from the spec (section 4.2, merge): the surviving points of
the new segment are spliced, one by one, into the existing points at
their correct sorted position. -/
def mergePoints (existing new : List ApproxPoint) : List ApproxPoint :=
  new.foldl (fun acc p => insertPointSorted p acc) existing

/-- Modelled from the spec (section 4.2, merge): whether a parameter value
lies in a sub-range already covered by one of the given stored segments. -/
def coveredBy (q : Rat) (segs : List CurveApproxSegment) : Bool :=
  segs.any fun t => decide (t.boundary.start ≤ q) && decide (q ≤ t.boundary.stop)

/-- Modelled from the spec, section 4.2, merge (mutating; the updated
approximation is returned as the second component): identify the stored
segments overlapping or adjacent to the new (already normalized) segment.
If none, insert the new segment into the sorted list and return it
unchanged.  Tie-break rule first: if a touching stored segment has exactly
the new segment's boundary, that is full coverage by the existing segment;
the new segment is discarded entirely and the existing one returned, the
approximation unchanged.  Otherwise build the union boundary (min of
starts to max of ends across the new and all touching segments) and the
merged point sequence: existing points of the touching segments take
precedence, and points of the new segment outside any covered sub-range
are spliced in at their sorted position; the superseded stored segments
are removed and the single combined segment inserted. -/
def CurveApprox.merge (ca : CurveApprox) (new : CurveApproxSegment) :
    CurveApproxSegment × CurveApprox :=
  let touching :=
    ca.segments.filter fun t => t.boundary.overlapsOrTouches new.boundary
  let rest :=
    ca.segments.filter fun t => !t.boundary.overlapsOrTouches new.boundary
  if touching.isEmpty then
    (new, ⟨insertSegmentSorted new ca.segments⟩)
  else
    match touching.find? (fun t => decide (t.boundary = new.boundary)) with
    | some t => (t, ca)
    | none =>
        let unionStart := (touching.map fun t => t.boundary.start).foldl min new.boundary.start
        let unionStop := (touching.map fun t => t.boundary.stop).foldl max new.boundary.stop
        let existingPts := (touching.map fun t => t.points).flatten
        let newPts := new.points.filter fun p => !coveredBy p.localForm touching
        let combined : CurveApproxSegment :=
          ⟨⟨unionStart, unionStop⟩, mergePoints existingPts newPts⟩
        (combined, ⟨insertSegmentSorted combined rest⟩)

/-- Modelled from the spec (section 4.2, make_subset): clip a stored
segment's boundary to its intersection with the requested normalized
boundary, keeping only the points strictly inside the clipped boundary. -/
def clipSegment (b : CurveBoundary) (s : CurveApproxSegment) : CurveApproxSegment :=
  let lo := max s.boundary.start b.start
  let hi := min s.boundary.stop b.stop
  ⟨⟨lo, hi⟩,
    s.points.filter fun p => decide (lo < p.localForm) && decide (p.localForm < hi)⟩

/-- Modelled from the spec, section 4.2: "make_subset(boundary:
normalized) -> CurveApproximation: for every stored segment whose boundary
intersects boundary, clip its boundary to the intersection and keep only
points whose parameter lies strictly inside the clipped boundary; collect
the (possibly several) clipped segments, in ascending order."  Per get
step 1 the requested boundary is normalized first. -/
def CurveApprox.makeSubset (ca : CurveApprox) (boundary : CurveBoundary) : CurveApprox :=
  let b := boundary.normalize
  ⟨(ca.segments.filter fun s => s.boundary.overlapsOrTouches b).map (clipSegment b)⟩

/-- Curve identity: the cache treats it as an opaque, comparable key. -/
abbrev CurveId := Nat

/-- Cache for curve approximations, translated from cache.rs: a mapping
from curve identity to curve approximation (`inner: BTreeMap` in the
source), embedded as an association list with unique keys. -/
structure CurveApproxCache where
  inner : List (CurveId × CurveApprox)
deriving DecidableEq, Repr

/-- Key lookup in the association list embedding the BTreeMap. -/
def entryFor : List (CurveId × CurveApprox) → CurveId → Option CurveApprox
  | [], _ => none
  | (k, v) :: rest, c => if k = c then some v else entryFor rest c

/-- Key update in the association list embedding the BTreeMap: replaces
the value stored under the key, or appends a fresh entry. -/
def setEntry : List (CurveId × CurveApprox) → CurveId → CurveApprox →
    List (CurveId × CurveApprox)
  | [], c, v => [(c, v)]
  | (k, w) :: rest, c, v =>
      if k = c then (c, v) :: rest else (k, w) :: setEntry rest c v

/-- Get an approximation from the cache.  Translated from cache.rs,
`CurveApproxCache::get` (lines 21-39): look the curve up, take the subset
for the requested boundary, and reverse the result if the requested
boundary was not normalized. -/
def CurveApproxCache.get (cache : CurveApproxCache) (curve : CurveId)
    (boundary : CurveBoundary) : Option CurveApprox :=
  match entryFor cache.inner curve with
  | none => none
  | some approx =>
      let approx := approx.makeSubset boundary
      if boundary.isNormalized then some approx else some approx.reverse

/-- Insert an approximated segment of the curve into the cache.
Translated from cache.rs, `CurveApproxCache::insert` (lines 42-74):
normalize the new segment, then either merge it into the existing
approximation for the curve or create a fresh single-segment
approximation; store the result back and return the canonical segment. -/
def CurveApproxCache.insert (cache : CurveApproxCache) (curve : CurveId)
    (newSegment : CurveApproxSegment) :
    CurveApproxSegment × CurveApproxCache :=
  let seg := newSegment.normalize
  match entryFor cache.inner curve with
  | some existingApprox =>
      let (segment, approx) := existingApprox.merge seg
      (segment, ⟨setEntry cache.inner curve approx⟩)
  | none =>
      (seg, ⟨setEntry cache.inner curve ⟨[seg]⟩⟩)

/-- The empty cache (`CurveApproxCache::default` in the source). -/
def CurveApproxCache.empty : CurveApproxCache := ⟨[]⟩

/-- Concrete approximation point used in test inputs: parameter q mapped
to the global position (q, q, q), as in the unit tests of cache.rs. -/
def pt (q : Rat) : ApproxPoint := ⟨q, (q, q, q)⟩

/-! ### Basic algebra of the value operations -/

theorem boundary_reverse_involutive (b : CurveBoundary) : b.reverse.reverse = b :=
  rfl

theorem segment_reverse_involutive (s : CurveApproxSegment) :
    s.reverse.reverse = s := by
  simp [CurveApproxSegment.reverse, CurveBoundary.reverse]

theorem approx_reverse_involutive (a : CurveApprox) : a.reverse.reverse = a := by
  simp [CurveApprox.reverse, List.map_reverse, List.map_map,
    Function.comp_def, segment_reverse_involutive]

/-- The normalized form of a boundary has ascending endpoints. -/
theorem CurveBoundary.normalize_start_le_stop (b : CurveBoundary) :
    b.normalize.start ≤ b.normalize.stop := by
  obtain ⟨x, y⟩ := b
  simp only [CurveBoundary.normalize, CurveBoundary.isNormalized, CurveBoundary.reverse]
  split <;> rename_i h <;> simp_all
  exact le_of_lt h

/-- Reversing a boundary does not change its normalized form. -/
theorem CurveBoundary.normalize_reverse (b : CurveBoundary) :
    b.reverse.normalize = b.normalize := by
  obtain ⟨x, y⟩ := b
  simp only [CurveBoundary.normalize, CurveBoundary.isNormalized, CurveBoundary.reverse]
  rcases lt_trichotomy x y with h | h | h
  · simp [h, not_lt.mpr h.le]
  · simp [h]
  · simp [h, not_lt.mpr h.le]

/-- The boundary of a normalized segment is the normalized boundary. -/
theorem CurveApproxSegment.normalize_boundary (s : CurveApproxSegment) :
    s.normalize.boundary = s.boundary.normalize := by
  simp only [CurveApproxSegment.normalize, CurveBoundary.normalize,
    CurveApproxSegment.reverse]
  split <;> rfl

/-! ### Association-list (BTreeMap embedding) lemmas -/

theorem entryFor_setEntry_self (l : List (CurveId × CurveApprox)) (c : CurveId)
    (v : CurveApprox) : entryFor (setEntry l c v) c = some v := by
  induction l with
  | nil => simp [setEntry, entryFor]
  | cons kv rest ih =>
      obtain ⟨k, w⟩ := kv
      by_cases h : k = c
      · simp [setEntry, entryFor, h]
      · simp [setEntry, entryFor, h, ih]

theorem entryFor_setEntry_other (l : List (CurveId × CurveApprox)) (c c' : CurveId)
    (v : CurveApprox) (h : c' ≠ c) :
    entryFor (setEntry l c v) c' = entryFor l c' := by
  have hne : ¬c = c' := fun hh => h hh.symm
  induction l with
  | nil => simp [setEntry, entryFor, hne]
  | cons kv rest ih =>
      obtain ⟨k, w⟩ := kv
      by_cases hk : k = c
      · subst hk
        simp [setEntry, entryFor, hne]
      · simp [setEntry, entryFor, hk, ih]

theorem entryFor_setEntry_isSome (l : List (CurveId × CurveApprox)) (c c' : CurveId)
    (v : CurveApprox) (h : (entryFor l c').isSome = true) :
    (entryFor (setEntry l c v) c').isSome = true := by
  by_cases hc : c' = c
  · subst hc
    simp [entryFor_setEntry_self]
  · rw [entryFor_setEntry_other l c c' v hc]
    exact h

/-! ### Sorted-insertion and point-splicing lemmas -/

theorem insertSegmentSorted_perm (s : CurveApproxSegment)
    (l : List CurveApproxSegment) : (insertSegmentSorted s l).Perm (s :: l) := by
  induction l with
  | nil => simp [insertSegmentSorted]
  | cons t rest ih =>
      simp only [insertSegmentSorted]
      split
      · exact List.Perm.refl _
      · exact (ih.cons t).trans (List.Perm.swap s t rest)

theorem insertPointSorted_append (p : ApproxPoint) (l : List ApproxPoint)
    (h : ∀ a ∈ l, a.localForm ≤ p.localForm) :
    insertPointSorted p l = l ++ [p] := by
  induction l with
  | nil => rfl
  | cons b bs ih =>
      have hb : b.localForm ≤ p.localForm := h b (List.mem_cons_self b bs)
      simp only [insertPointSorted, not_lt.mpr hb, if_neg (not_lt.mpr hb)]
      simp [ih fun a ha => h a (List.mem_cons_of_mem b ha)]

theorem mergePoints_append (new existing : List ApproxPoint)
    (hsorted : new.Pairwise fun a b => a.localForm ≤ b.localForm)
    (h : ∀ b ∈ new, ∀ a ∈ existing, a.localForm ≤ b.localForm) :
    mergePoints existing new = existing ++ new := by
  induction new generalizing existing with
  | nil => simp [mergePoints]
  | cons b bs ih =>
      have hfirst : insertPointSorted b existing = existing ++ [b] :=
        insertPointSorted_append b existing
          (h b (List.mem_cons_self b bs))
      have hrest := List.Pairwise.of_cons hsorted
      have hhead : ∀ x ∈ bs, b.localForm ≤ x.localForm := by
        intro x hx
        exact (List.pairwise_cons.mp hsorted).1 x hx
      simp only [mergePoints, List.foldl_cons] at *
      rw [hfirst]
      have := ih (existing ++ [b]) hrest ?_
      · rw [this, List.append_assoc]
        rfl
      · intro c hc a ha
        rcases List.mem_append.mp ha with ha | ha
        · exact h c (List.mem_cons_of_mem b hc) a ha
        · have : a = b := by simpa using ha
          subst this
          exact hhead c hc

/-! ### find?, filter and fold lemmas -/

theorem find?_eq_some_of_unique {α : Type} (p : α → Bool) (l : List α) (t : α)
    (hmem : t ∈ l) (hp : p t = true) (huniq : ∀ u ∈ l, p u = true → u = t) :
    l.find? p = some t := by
  induction l with
  | nil => cases hmem
  | cons a rest ih =>
      rcases List.mem_cons.mp hmem with h | h
      · subst h
        simp [List.find?, hp]
      · by_cases ha : p a = true
        · have : a = t := huniq a (List.mem_cons_self a rest) ha
          subst this
          simp [List.find?, ha]
        · simp only [List.find?]
          rw [Bool.not_eq_true] at ha
          rw [ha]
          exact ih h fun u hu hpu => huniq u (List.mem_cons_of_mem a hu) hpu

theorem foldl_min_le_init (l : List Rat) (i : Rat) : l.foldl min i ≤ i := by
  induction l generalizing i with
  | nil => simp
  | cons a rest ih =>
      simpa using le_trans (ih (min i a)) (min_le_left i a)

theorem init_le_foldl_max (l : List Rat) (i : Rat) : i ≤ l.foldl max i := by
  induction l generalizing i with
  | nil => simp
  | cons a rest ih =>
      simpa using le_trans (le_max_left i a) (ih (max i a))

/-! ### Claim C5: partial overlap clipping -/

/-- C5: Partial overlap clipping.  For a curve whose cache holds one
segment over boundary [0,1] with points at parameters 0.125, 0.375,
0.625, 0.875, get over [-0.5, 0.5] returns exactly one segment with
boundary [0, 0.5] and the points 0.125, 0.375; get over [0.5, 1.5]
returns exactly boundary [0.5, 1] with points 0.625, 0.875; and get over
[0.25, 0.75] returns exactly boundary [0.25, 0.75] with points 0.375,
0.625: clipping keeps only points strictly inside the intersected
boundary and never extrapolates. -/
theorem c5_partial_overlap_clipping :
    ((CurveApproxCache.empty.insert 0
        ⟨⟨0, 1⟩, [pt 0.125, pt 0.375, pt 0.625, pt 0.875]⟩).2.get 0 ⟨-0.5, 0.5⟩ =
      some ⟨[⟨⟨0, 0.5⟩, [pt 0.125, pt 0.375]⟩]⟩) ∧
    ((CurveApproxCache.empty.insert 0
        ⟨⟨0, 1⟩, [pt 0.125, pt 0.375, pt 0.625, pt 0.875]⟩).2.get 0 ⟨0.5, 1.5⟩ =
      some ⟨[⟨⟨0.5, 1⟩, [pt 0.625, pt 0.875]⟩]⟩) ∧
    ((CurveApproxCache.empty.insert 0
        ⟨⟨0, 1⟩, [pt 0.125, pt 0.375, pt 0.625, pt 0.875]⟩).2.get 0 ⟨0.25, 0.75⟩ =
      some ⟨[⟨⟨0.25, 0.75⟩, [pt 0.375, pt 0.625]⟩]⟩) := by
  refine ⟨?_, ?_, ?_⟩ <;> with_unfolding_all decide

/-! ### Claim C6: get returns None exactly when the curve is unknown -/

/-- C6: For every cache state, curve and boundary, get returns none if
and only if the curve has no cache entry; and for a curve that has an
entry, if the requested boundary is wholly disjoint from (not even
touching) every cached segment, get returns an approximation with zero
segments rather than none. -/
theorem c6_get_none_iff_unknown_curve (st : CurveApproxCache) (c : CurveId)
    (b : CurveBoundary) :
    (st.get c b = none ↔ entryFor st.inner c = none) ∧
    (∀ approx, entryFor st.inner c = some approx →
      (∀ s ∈ approx.segments,
        s.boundary.overlapsOrTouches b.normalize = false) →
      st.get c b = some ⟨[]⟩) := by
  constructor
  · cases h : entryFor st.inner c with
    | none => simp [CurveApproxCache.get, h]
    | some approx =>
        simp only [CurveApproxCache.get, h]
        split <;> simp
  · intro approx hentry hdisj
    have hfilter :
        approx.segments.filter
          (fun s => s.boundary.overlapsOrTouches b.normalize) = [] := by
      rw [List.filter_eq_nil_iff]
      intro s hs
      simp [hdisj s hs]
    simp only [CurveApproxCache.get, hentry, CurveApprox.makeSubset]
    rw [hfilter]
    simp only [List.map_nil]
    split <;> rfl

/-- Witness for C6 at a concrete input: the cache knows curve 0 over
boundary [2,3]; a request for the wholly disjoint boundary [0,1] yields
an empty approximation, not none. -/
theorem c6_get_none_iff_unknown_curve_witness :
    ((CurveApproxCache.empty.insert 0 ⟨⟨2, 3⟩, [pt 2.25, pt 2.75]⟩).2.get 0 ⟨0, 1⟩ =
      some ⟨[]⟩) :=
  (c6_get_none_iff_unknown_curve
      (CurveApproxCache.empty.insert 0 ⟨⟨2, 3⟩, [pt 2.25, pt 2.75]⟩).2 0 ⟨0, 1⟩).2
    ⟨[⟨⟨2, 3⟩, [pt 2.25, pt 2.75]⟩]⟩
    (by with_unfolding_all decide)
    (by with_unfolding_all decide)

/-! ### Claim C2: direction independence of storage -/

/-- C2 counterexample: for the degenerate boundary ⟨0,0⟩ with two
distinct points, inserting the segment and inserting its reverse from
the same (empty) starting state leave the cache in different states: the
normalization step reverses the point list of exactly one of the two. -/
theorem c2_counterexample :
    (CurveApproxCache.empty.insert 0 ⟨⟨0, 0⟩, [pt 1, pt 2]⟩).2 ≠
      (CurveApproxCache.empty.insert 0
        ⟨CurveBoundary.reverse ⟨0, 0⟩, List.reverse [pt 1, pt 2]⟩).2 := by
  with_unfolding_all decide

/-- C2 (amended): for every starting state, curve, boundary b and point
list p, inserting (b, p) and inserting (reverse b, reverse p) give the
same returned segment and leave the cache in the same state, provided b
is non-degenerate (start ≠ end) or p is its own reverse (as is forced
for degenerate boundaries by the points-strictly-interior invariant). -/
theorem c2_direction_independence (st : CurveApproxCache) (c : CurveId)
    (b : CurveBoundary) (p : List ApproxPoint)
    (h : b.start ≠ b.stop ∨ p.reverse = p) :
    st.insert c ⟨b, p⟩ = st.insert c ⟨b.reverse, p.reverse⟩ := by
  have hseg : CurveApproxSegment.normalize ⟨b, p⟩ =
      CurveApproxSegment.normalize ⟨b.reverse, p.reverse⟩ := by
    obtain ⟨x, y⟩ := b
    simp only [CurveApproxSegment.normalize, CurveApproxSegment.reverse,
      CurveBoundary.isNormalized, CurveBoundary.reverse]
    rcases lt_trichotomy x y with hxy | hxy | hxy
    · simp [hxy, not_lt.mpr hxy.le]
    · rcases h with h | h
      · exact absurd hxy h
      · simp [hxy, lt_irrefl, h]
    · simp [hxy, not_lt.mpr hxy.le]
  unfold CurveApproxCache.insert
  rw [hseg]

/-- Witness for C2 (amended) at a concrete input: inserting the reversed
segment over boundary ⟨1,0⟩ leaves the same cache state as inserting its
reverse over ⟨0,1⟩. -/
theorem c2_direction_independence_witness :
    CurveApproxCache.empty.insert 0 ⟨⟨1, 0⟩, [pt 0.75, pt 0.25]⟩ =
      CurveApproxCache.empty.insert 0
        ⟨CurveBoundary.reverse ⟨1, 0⟩, List.reverse [pt 0.75, pt 0.25]⟩ :=
  c2_direction_independence CurveApproxCache.empty 0 ⟨1, 0⟩ [pt 0.75, pt 0.25]
    (Or.inl (by with_unfolding_all decide))

/-! ### Claim C3: round-trip through reversal -/

/-- make_subset only looks at the normalized form of the requested
boundary, so a reversed request extracts the same subset. -/
theorem makeSubset_reverse_boundary (a : CurveApprox) (b : CurveBoundary) :
    a.makeSubset b.reverse = a.makeSubset b := by
  simp only [CurveApprox.makeSubset, CurveBoundary.normalize_reverse]

/-- If all elements of a list are equal to one value, reversing the list
is a no-op. -/
theorem reverse_of_forall_eq {α : Type} {l : List α} {v : α}
    (h : ∀ u ∈ l, u = v) : l.reverse = l := by
  rw [List.eq_replicate_of_mem h, List.reverse_replicate]

/-- Every segment extracted for a degenerate request ⟨x,x⟩ is the
degenerate empty segment at x. -/
theorem makeSubset_degenerate (a : CurveApprox) (x : Rat) :
    ∀ u ∈ (a.makeSubset ⟨x, x⟩).segments, u = ⟨⟨x, x⟩, []⟩ := by
  intro u hu
  simp only [CurveApprox.makeSubset] at hu
  have hnorm : CurveBoundary.normalize ⟨x, x⟩ = ⟨x, x⟩ := by
    simp [CurveBoundary.normalize, CurveBoundary.isNormalized, CurveBoundary.reverse]
  rw [hnorm] at hu
  obtain ⟨s, hs, hclip⟩ := List.mem_map.mp hu
  have hsb := List.of_mem_filter hs
  simp only [CurveBoundary.overlapsOrTouches, Bool.and_eq_true, decide_eq_true_eq] at hsb
  subst hclip
  simp only [clipSegment]
  have hlo : max s.boundary.start x = x := max_eq_right hsb.1
  have hhi : min s.boundary.stop x = x := min_eq_right hsb.2
  rw [hlo, hhi]
  have : s.points.filter
      (fun p => decide (x < p.localForm) && decide (p.localForm < x)) = [] := by
    rw [List.filter_eq_nil_iff]
    intro p hp
    simp only [Bool.and_eq_true, decide_eq_true_eq, not_and]
    intro h1 h2
    exact absurd (h1.trans h2) (lt_irrefl x)
  rw [this]

/-- A degenerate subset is its own reverse. -/
theorem makeSubset_degenerate_reverse (a : CurveApprox) (x : Rat) :
    (a.makeSubset ⟨x, x⟩).reverse = a.makeSubset ⟨x, x⟩ := by
  have hall := makeSubset_degenerate a x
  simp only [CurveApprox.reverse]
  have hmap : (a.makeSubset ⟨x, x⟩).segments.map CurveApproxSegment.reverse =
      (a.makeSubset ⟨x, x⟩).segments :=
    calc (a.makeSubset ⟨x, x⟩).segments.map CurveApproxSegment.reverse
        = (a.makeSubset ⟨x, x⟩).segments.map id :=
          List.map_congr_left fun u hu => by rw [hall u hu]; rfl
      _ = (a.makeSubset ⟨x, x⟩).segments := List.map_id _
  rw [hmap, reverse_of_forall_eq hall]

/-- C3: Round-trip through reversal.  For every cache state, curve and
boundary, get with the reversed boundary equals the reverse of get with
the boundary itself (whenever one is defined, so is the other): the
caller always receives points ordered to match the direction of the
boundary it asked for. -/
theorem c3_get_reversal_round_trip (st : CurveApproxCache) (c : CurveId)
    (b : CurveBoundary) :
    st.get c b.reverse = (st.get c b).map CurveApprox.reverse := by
  cases h : entryFor st.inner c with
  | none => simp [CurveApproxCache.get, h]
  | some approx =>
      simp only [CurveApproxCache.get, h, makeSubset_reverse_boundary]
      obtain ⟨x, y⟩ := b
      rcases lt_trichotomy x y with hxy | hxy | hxy
      · have h1 : CurveBoundary.isNormalized ⟨x, y⟩ = true := by
          simp [CurveBoundary.isNormalized, hxy]
        have h2 : CurveBoundary.isNormalized (CurveBoundary.reverse ⟨x, y⟩) = false := by
          simp [CurveBoundary.isNormalized, CurveBoundary.reverse, not_lt.mpr hxy.le]
        rw [h1, h2]
        simp
      · subst hxy
        have h1 : CurveBoundary.isNormalized ⟨x, x⟩ = false := by
          simp [CurveBoundary.isNormalized]
        have h2 : CurveBoundary.reverse ⟨x, x⟩ = ⟨x, x⟩ := rfl
        have hsym := makeSubset_degenerate_reverse approx x
        rw [h2, h1]
        simp [hsym]
      · have h1 : CurveBoundary.isNormalized ⟨x, y⟩ = false := by
          simp [CurveBoundary.isNormalized, not_lt.mpr hxy.le]
        have h2 : CurveBoundary.isNormalized (CurveBoundary.reverse ⟨x, y⟩) = true := by
          simp [CurveBoundary.isNormalized, CurveBoundary.reverse, hxy]
        rw [h1, h2]
        simp [approx_reverse_involutive]

/-! ### Claim C9: entries are never removed -/

/-- One cache operation: an insert, or a get.  `get` takes the cache by
shared reference in the source (cache.rs line 22, `&self`), so in a
sequence of operations it contributes no state change. -/
inductive CacheOp where
  | insertOp (c : CurveId) (s : CurveApproxSegment)
  | getOp (c : CurveId) (b : CurveBoundary)

/-- Apply one operation to the cache state. -/
def applyOp (st : CurveApproxCache) : CacheOp → CurveApproxCache
  | CacheOp.insertOp c s => (st.insert c s).2
  | CacheOp.getOp _ _ => st

/-- Apply a sequence of operations to the cache state, in order. -/
def applyOps (st : CurveApproxCache) (ops : List CacheOp) : CurveApproxCache :=
  ops.foldl applyOp st

/-- insert creates or keeps the entry for its own curve. -/
theorem insert_entry_isSome_self (st : CurveApproxCache) (c : CurveId)
    (s : CurveApproxSegment) :
    (entryFor (st.insert c s).2.inner c).isSome = true := by
  unfold CurveApproxCache.insert
  cases h : entryFor st.inner c with
  | none => simp [entryFor_setEntry_self]
  | some approx => simp [entryFor_setEntry_self]

/-- insert never removes any existing entry. -/
theorem insert_preserves_entry (st : CurveApproxCache) (c c' : CurveId)
    (s : CurveApproxSegment) (h : (entryFor st.inner c').isSome = true) :
    (entryFor (st.insert c s).2.inner c').isSome = true := by
  unfold CurveApproxCache.insert
  cases hc : entryFor st.inner c with
  | none => simpa using entryFor_setEntry_isSome st.inner c c' _ h
  | some approx => simpa using entryFor_setEntry_isSome st.inner c c' _ h

/-- No operation removes an existing entry. -/
theorem applyOps_preserves_entry (ops : List CacheOp) (st : CurveApproxCache)
    (c : CurveId) (h : (entryFor st.inner c).isSome = true) :
    (entryFor (applyOps st ops).inner c).isSome = true := by
  induction ops generalizing st with
  | nil => exact h
  | cons op rest ih =>
      cases op with
      | insertOp c' s =>
          exact ih ((st.insert c' s).2) (insert_preserves_entry st c' c s h)
      | getOp c' b => exact ih st h

/-- get succeeds exactly on the curves that have an entry. -/
theorem get_isSome_iff_entry (st : CurveApproxCache) (c : CurveId)
    (b : CurveBoundary) :
    (st.get c b).isSome = (entryFor st.inner c).isSome := by
  cases h : entryFor st.inner c with
  | none => simp [CurveApproxCache.get, h]
  | some approx =>
      simp only [CurveApproxCache.get, h]
      split <;> simp

/-- C9: Entries are never removed.  For every starting state, once a
curve has been passed to insert, then after every subsequent sequence of
insert and get operations the cache still has an entry for that curve:
get returns Some for every boundary. -/
theorem c9_entries_never_removed (st : CurveApproxCache) (c : CurveId)
    (s : CurveApproxSegment) (ops : List CacheOp) (b : CurveBoundary) :
    ((applyOps (st.insert c s).2 ops).get c b).isSome = true := by
  rw [get_isSome_iff_entry]
  exact applyOps_preserves_entry ops (st.insert c s).2 c
    (insert_entry_isSome_self st c s)

/-! ### Claim C7: disjoint insert is a no-op merge -/

/-- C7: Disjoint insert is a no-op merge.  Inserting a normalized
segment whose boundary is disjoint from and non-adjacent to every stored
segment of the curve returns that segment unchanged, and afterwards the
cache entry holds exactly the old segments plus the new one as separate
segments. -/
theorem c7_disjoint_insert (st : CurveApproxCache) (c : CurveId)
    (s : CurveApproxSegment) (approx : CurveApprox)
    (hentry : entryFor st.inner c = some approx)
    (hnorm : s.normalize = s)
    (hdisj : ∀ t ∈ approx.segments,
      t.boundary.overlapsOrTouches s.boundary = false) :
    (st.insert c s).1 = s ∧
    ∃ a, entryFor (st.insert c s).2.inner c = some a ∧
      a.segments.Perm (s :: approx.segments) := by
  have hfilter : approx.segments.filter
      (fun t => t.boundary.overlapsOrTouches s.boundary) = [] := by
    rw [List.filter_eq_nil_iff]
    intro t ht
    simp [hdisj t ht]
  have hmerge : approx.merge s = (s, ⟨insertSegmentSorted s approx.segments⟩) := by
    simp only [CurveApprox.merge, hfilter, List.isEmpty_nil, if_true]
  simp only [CurveApproxCache.insert, hentry, hnorm, hmerge]
  refine ⟨trivial, ⟨insertSegmentSorted s approx.segments⟩, ?_, ?_⟩
  · exact entryFor_setEntry_self st.inner c _
  · exact insertSegmentSorted_perm s approx.segments

/-- Witness for C7 at a concrete input: the cache knows curve 0 over
[2,3]; inserting the disjoint normalized segment over [0,1] returns it
unchanged and the entry then holds both segments. -/
theorem c7_disjoint_insert_witness :
    ((CurveApproxCache.empty.insert 0 ⟨⟨2, 3⟩, [pt 2.25, pt 2.75]⟩).2.insert 0
        ⟨⟨0, 1⟩, [pt 0.25, pt 0.75]⟩).1 = ⟨⟨0, 1⟩, [pt 0.25, pt 0.75]⟩ ∧
    ∃ a, entryFor
        ((CurveApproxCache.empty.insert 0 ⟨⟨2, 3⟩, [pt 2.25, pt 2.75]⟩).2.insert 0
          ⟨⟨0, 1⟩, [pt 0.25, pt 0.75]⟩).2.inner 0 = some a ∧
      a.segments.Perm
        [⟨⟨0, 1⟩, [pt 0.25, pt 0.75]⟩, ⟨⟨2, 3⟩, [pt 2.25, pt 2.75]⟩] :=
  c7_disjoint_insert
    (CurveApproxCache.empty.insert 0 ⟨⟨2, 3⟩, [pt 2.25, pt 2.75]⟩).2 0
    ⟨⟨0, 1⟩, [pt 0.25, pt 0.75]⟩ ⟨[⟨⟨2, 3⟩, [pt 2.25, pt 2.75]⟩]⟩
    (by with_unfolding_all decide)
    (by with_unfolding_all decide)
    (by with_unfolding_all decide)

/-! ### Claim C10: insert returns the normalized segment -/

theorem overlapsOrTouches_comm (a b : CurveBoundary) :
    a.overlapsOrTouches b = b.overlapsOrTouches a := by
  simp only [CurveBoundary.overlapsOrTouches]
  rw [Bool.and_comm]

/-- Whatever branch merge takes, the returned segment has an ascending
boundary, provided the stored segments do and the new segment does. -/
theorem merge_fst_start_le_stop (ca : CurveApprox) (new : CurveApproxSegment)
    (hnew : new.boundary.start ≤ new.boundary.stop)
    (hwf : ∀ t ∈ ca.segments, t.boundary.start ≤ t.boundary.stop) :
    (ca.merge new).1.boundary.start ≤ (ca.merge new).1.boundary.stop := by
  simp only [CurveApprox.merge]
  split
  · exact hnew
  · split
    · rename_i t hfind
      have hmemf := List.mem_of_find?_eq_some hfind
      exact hwf t (List.mem_of_mem_filter hmemf)
    · exact le_trans (foldl_min_le_init _ _)
        (le_trans hnew (init_le_foldl_max _ _))

/-- C10: The segment returned by insert is always in ascending-boundary
(normalized) direction, given that the stored segments of the curve are;
and when the curve is fresh the returned segment is exactly the
normalization of the input, so for a reversed non-degenerate input the
returned segment is not equal to the input but to its normalization. -/
theorem c10_insert_returns_normalized (st : CurveApproxCache) (c : CurveId)
    (s : CurveApproxSegment)
    (hwf : ∀ a, entryFor st.inner c = some a →
      ∀ t ∈ a.segments, t.boundary.start ≤ t.boundary.stop) :
    ((st.insert c s).1.boundary.start ≤ (st.insert c s).1.boundary.stop) ∧
    (entryFor st.inner c = none → (st.insert c s).1 = s.normalize) ∧
    (entryFor st.inner c = none → s.boundary.isNormalized = false →
      s.boundary.start ≠ s.boundary.stop → (st.insert c s).1 ≠ s) := by
  have hnorm : s.normalize.boundary.start ≤ s.normalize.boundary.stop := by
    rw [CurveApproxSegment.normalize_boundary]
    exact CurveBoundary.normalize_start_le_stop s.boundary
  refine ⟨?_, ?_, ?_⟩
  · cases h : entryFor st.inner c with
    | none => simp only [CurveApproxCache.insert, h]; exact hnorm
    | some approx =>
        simp only [CurveApproxCache.insert, h]
        exact merge_fst_start_le_stop approx s.normalize hnorm (hwf approx h)
  · intro h
    simp only [CurveApproxCache.insert, h]
  · intro h hrev hne
    simp only [CurveApproxCache.insert, h]
    simp only [CurveApproxSegment.normalize, hrev, Bool.false_eq_true, if_false]
    intro heq
    have : s.boundary.stop = s.boundary.start := congrArg (fun u => u.boundary.start) heq
    exact hne this.symm

/-- Witness for C10 at a concrete input: inserting the reversed segment
over ⟨1,0⟩ into the empty cache returns the normalized segment over
⟨0,1⟩, which differs from the input. -/
theorem c10_insert_returns_normalized_witness :
    ((CurveApproxCache.empty.insert 0 ⟨⟨1, 0⟩, [pt 0.75, pt 0.25]⟩).1.boundary.start ≤
      (CurveApproxCache.empty.insert 0 ⟨⟨1, 0⟩, [pt 0.75, pt 0.25]⟩).1.boundary.stop) ∧
    (entryFor CurveApproxCache.empty.inner 0 = none →
      (CurveApproxCache.empty.insert 0 ⟨⟨1, 0⟩, [pt 0.75, pt 0.25]⟩).1 =
        CurveApproxSegment.normalize ⟨⟨1, 0⟩, [pt 0.75, pt 0.25]⟩) ∧
    (entryFor CurveApproxCache.empty.inner 0 = none →
      (CurveBoundary.isNormalized ⟨1, 0⟩ = false) →
      (CurveBoundary.start ⟨1, 0⟩ ≠ CurveBoundary.stop ⟨1, 0⟩) →
      (CurveApproxCache.empty.insert 0 ⟨⟨1, 0⟩, [pt 0.75, pt 0.25]⟩).1 ≠
        ⟨⟨1, 0⟩, [pt 0.75, pt 0.25]⟩) :=
  c10_insert_returns_normalized CurveApproxCache.empty 0
    ⟨⟨1, 0⟩, [pt 0.75, pt 0.25]⟩
    (fun a ha => by simp [CurveApproxCache.empty, entryFor] at ha)

/-! ### Claim C1: first-writer-wins on full coverage -/

/-- The non-touching relation between segments is symmetric. -/
theorem not_touching_symm : Symmetric fun u v : CurveApproxSegment =>
    u.boundary.overlapsOrTouches v.boundary = false := by
  intro a b h
  rw [overlapsOrTouches_comm]
  exact h

/-- Tie-break of merge, from the spec: if a stored segment of a maximally
coalesced (pairwise non-touching) approximation has exactly the boundary
of the new segment, merge discards the new segment entirely and returns
the stored one, leaving the approximation unchanged. -/
theorem merge_full_coverage (ca : CurveApprox) (new t : CurveApproxSegment)
    (hmem : t ∈ ca.segments) (hb : t.boundary = new.boundary)
    (hle : new.boundary.start ≤ new.boundary.stop)
    (hpw : ca.segments.Pairwise fun u v =>
      u.boundary.overlapsOrTouches v.boundary = false) :
    ca.merge new = (t, ca) := by
  have htouch : t.boundary.overlapsOrTouches new.boundary = true := by
    rw [hb]
    simp [CurveBoundary.overlapsOrTouches, hle]
  have hmemf : t ∈ ca.segments.filter
      (fun u => u.boundary.overlapsOrTouches new.boundary) :=
    List.mem_filter.mpr ⟨hmem, htouch⟩
  have hne : (ca.segments.filter
      (fun u => u.boundary.overlapsOrTouches new.boundary)).isEmpty = false := by
    cases hfil : ca.segments.filter
        (fun u => u.boundary.overlapsOrTouches new.boundary) with
    | nil => rw [hfil] at hmemf; cases hmemf
    | cons a l => rfl
  have hfind : (ca.segments.filter
        (fun u => u.boundary.overlapsOrTouches new.boundary)).find?
      (fun u => decide (u.boundary = new.boundary)) = some t := by
    apply find?_eq_some_of_unique _ _ t hmemf (by simp [hb])
    intro u hu hpu
    have humem := List.mem_of_mem_filter hu
    have hub : u.boundary = new.boundary := of_decide_eq_true hpu
    by_contra hne'
    have hself : new.boundary.overlapsOrTouches new.boundary = true := by
      simp [CurveBoundary.overlapsOrTouches, hle]
    have hR := List.Pairwise.forall not_touching_symm hpw humem hmem hne'
    rw [hub, hb, hself] at hR
    exact absurd hR (by decide)
  simp only [CurveApprox.merge, hne, Bool.false_eq_true, if_false, hfind]

/-- C1: First-writer-wins on full coverage.  For every cache state whose
entry for the curve is maximally coalesced (pairwise non-touching
segments), inserting a segment whose normalized boundary equals the
boundary of an already stored segment returns that pre-existing segment
unmodified and leaves the cache entry unchanged, regardless of the point
values carried by the new segment. -/
theorem c1_first_writer_wins (st : CurveApproxCache) (c : CurveId)
    (s t : CurveApproxSegment) (approx : CurveApprox)
    (hentry : entryFor st.inner c = some approx)
    (hpw : approx.segments.Pairwise fun u v =>
      u.boundary.overlapsOrTouches v.boundary = false)
    (hmem : t ∈ approx.segments)
    (hb : t.boundary = s.normalize.boundary) :
    (st.insert c s).1 = t ∧
    entryFor (st.insert c s).2.inner c = some approx := by
  have hle : s.normalize.boundary.start ≤ s.normalize.boundary.stop := by
    rw [CurveApproxSegment.normalize_boundary]
    exact CurveBoundary.normalize_start_le_stop s.boundary
  have hmerge := merge_full_coverage approx s.normalize t hmem hb hle hpw
  simp only [CurveApproxCache.insert, hentry, hmerge]
  exact ⟨trivial, entryFor_setEntry_self st.inner c approx⟩

/-- Witness for C1 at a concrete input (the congruent-segment test from
cache.rs): curve 0 is cached over [0,1] with points 0.25, 0.75;
inserting a congruent segment with different points 0.24, 0.76 returns
the original cached segment and leaves the entry unchanged. -/
theorem c1_first_writer_wins_witness :
    ((CurveApproxCache.empty.insert 0 ⟨⟨0, 1⟩, [pt 0.25, pt 0.75]⟩).2.insert 0
        ⟨⟨0, 1⟩, [pt 0.24, pt 0.76]⟩).1 = ⟨⟨0, 1⟩, [pt 0.25, pt 0.75]⟩ ∧
    entryFor
        ((CurveApproxCache.empty.insert 0 ⟨⟨0, 1⟩, [pt 0.25, pt 0.75]⟩).2.insert 0
          ⟨⟨0, 1⟩, [pt 0.24, pt 0.76]⟩).2.inner 0 =
      some ⟨[⟨⟨0, 1⟩, [pt 0.25, pt 0.75]⟩]⟩ :=
  c1_first_writer_wins
    (CurveApproxCache.empty.insert 0 ⟨⟨0, 1⟩, [pt 0.25, pt 0.75]⟩).2 0
    ⟨⟨0, 1⟩, [pt 0.24, pt 0.76]⟩ ⟨⟨0, 1⟩, [pt 0.25, pt 0.75]⟩
    ⟨[⟨⟨0, 1⟩, [pt 0.25, pt 0.75]⟩]⟩
    (by with_unfolding_all decide)
    (by with_unfolding_all decide)
    (by with_unfolding_all decide)
    (by with_unfolding_all decide)

/-! ### Claim C4: adjacent inserts merge -/

/-- A segment whose boundary is already normalized is unchanged by
normalization. -/
theorem segment_normalize_of_normalized (s : CurveApproxSegment)
    (h : s.boundary.isNormalized = true) : s.normalize = s := by
  simp [CurveApproxSegment.normalize, h]

/-- A boundary that is already normalized is unchanged by
normalization. -/
theorem boundary_normalize_of_normalized (b : CurveBoundary)
    (h : b.isNormalized = true) : b.normalize = b := by
  simp [CurveBoundary.normalize, h]

/-- C4: Adjacent insert merges.  Starting from a state with no entry for
the curve, inserting a segment over [q1,q2] with its points, then a
segment over the adjacent boundary [q2,q3] with its points, makes a
subsequent get over [q1,q3] return a single segment spanning [q1,q3]
whose point sequence is both inserted point sets in ascending parameter
order. -/
theorem c4_adjacent_insert_merges (st : CurveApproxCache) (c : CurveId)
    (q1 q2 q3 : Rat) (p1 p2 : List ApproxPoint)
    (hentry : entryFor st.inner c = none)
    (h12 : q1 < q2) (h23 : q2 < q3)
    (hp1 : ∀ a ∈ p1, q1 < a.localForm ∧ a.localForm < q2)
    (hp2 : ∀ a ∈ p2, q2 < a.localForm ∧ a.localForm < q3)
    (hp2sorted : p2.Pairwise fun a b => a.localForm ≤ b.localForm) :
    ((st.insert c ⟨⟨q1, q2⟩, p1⟩).2.insert c ⟨⟨q2, q3⟩, p2⟩).2.get c ⟨q1, q3⟩ =
      some ⟨[⟨⟨q1, q3⟩, p1 ++ p2⟩]⟩ := by
  have h13 : q1 < q3 := h12.trans h23
  have h1norm : CurveApproxSegment.normalize ⟨⟨q1, q2⟩, p1⟩ = ⟨⟨q1, q2⟩, p1⟩ :=
    segment_normalize_of_normalized _ (by
      simp [CurveBoundary.isNormalized, h12])
  have h2norm : CurveApproxSegment.normalize ⟨⟨q2, q3⟩, p2⟩ = ⟨⟨q2, q3⟩, p2⟩ :=
    segment_normalize_of_normalized _ (by
      simp [CurveBoundary.isNormalized, h23])
  have hstep1 : (st.insert c ⟨⟨q1, q2⟩, p1⟩).2 =
      ⟨setEntry st.inner c ⟨[⟨⟨q1, q2⟩, p1⟩]⟩⟩ := by
    simp only [CurveApproxCache.insert, hentry, h1norm]
  have hentry1 : entryFor (setEntry st.inner c ⟨[⟨⟨q1, q2⟩, p1⟩]⟩) c =
      some ⟨[⟨⟨q1, q2⟩, p1⟩]⟩ :=
    entryFor_setEntry_self st.inner c _
  have htouch : CurveBoundary.overlapsOrTouches ⟨q1, q2⟩ ⟨q2, q3⟩ = true := by
    simp [CurveBoundary.overlapsOrTouches, le_of_lt h13]
  have hbne : (⟨q1, q2⟩ : CurveBoundary) ≠ ⟨q2, q3⟩ := fun hh =>
    absurd (congrArg CurveBoundary.start hh) (ne_of_lt h12)
  have hcover : ∀ a ∈ p2,
      (!coveredBy a.localForm [⟨⟨q1, q2⟩, p1⟩]) = true := by
    intro a ha
    simp only [coveredBy, List.any_cons, List.any_nil, Bool.or_false,
      Bool.not_eq_true']
    have : ¬a.localForm ≤ q2 := not_le.mpr (hp2 a ha).1
    simp [this]
  have hsplice : mergePoints p1 p2 = p1 ++ p2 := by
    apply mergePoints_append p2 p1 hp2sorted
    intro b hb a ha
    exact le_trans (le_of_lt (hp1 a ha).2) (le_of_lt (hp2 b hb).1)
  have hdec : (decide ((⟨q1, q2⟩ : CurveBoundary) = ⟨q2, q3⟩)) = false :=
    decide_eq_false hbne
  have hmerge : (CurveApprox.mk [⟨⟨q1, q2⟩, p1⟩]).merge ⟨⟨q2, q3⟩, p2⟩ =
      (⟨⟨q1, q3⟩, p1 ++ p2⟩, ⟨[⟨⟨q1, q3⟩, p1 ++ p2⟩]⟩) := by
    simp only [CurveApprox.merge, List.filter_cons, List.filter_nil, htouch,
      Bool.not_true, List.isEmpty_cons, List.find?_cons, hdec,
      List.find?_nil, Bool.false_eq_true, if_false, if_true,
      List.map_cons, List.map_nil, List.foldl_cons, List.foldl_nil,
      List.flatten_cons, List.flatten_nil, List.append_nil]
    rw [List.filter_eq_self.mpr hcover, hsplice,
      min_eq_right (le_of_lt h12), max_eq_left (le_of_lt h23)]
    rfl
  have hstep2 : ((st.insert c ⟨⟨q1, q2⟩, p1⟩).2.insert c ⟨⟨q2, q3⟩, p2⟩).2 =
      ⟨setEntry (setEntry st.inner c ⟨[⟨⟨q1, q2⟩, p1⟩]⟩) c
        ⟨[⟨⟨q1, q3⟩, p1 ++ p2⟩]⟩⟩ := by
    rw [hstep1]
    simp only [CurveApproxCache.insert, hentry1, h2norm, hmerge]
  have hentry2 : entryFor
      (setEntry (setEntry st.inner c ⟨[⟨⟨q1, q2⟩, p1⟩]⟩) c
        ⟨[⟨⟨q1, q3⟩, p1 ++ p2⟩]⟩) c =
      some ⟨[⟨⟨q1, q3⟩, p1 ++ p2⟩]⟩ :=
    entryFor_setEntry_self _ c _
  have hb13 : CurveBoundary.isNormalized ⟨q1, q3⟩ = true := by
    simp [CurveBoundary.isNormalized, h13]
  have htouch13 : CurveBoundary.overlapsOrTouches ⟨q1, q3⟩ ⟨q1, q3⟩ = true := by
    simp [CurveBoundary.overlapsOrTouches, le_of_lt h13]
  have hkeep : ∀ a ∈ p1 ++ p2,
      (decide (max q1 q1 < a.localForm) && decide (a.localForm < min q3 q3)) = true := by
    intro a ha
    rw [max_self, min_self]
    rcases List.mem_append.mp ha with ha | ha
    · simp [(hp1 a ha).1, lt_trans (hp1 a ha).2 h23]
    · simp [lt_trans h12 (hp2 a ha).1, (hp2 a ha).2]
  have hsub : (CurveApprox.mk [⟨⟨q1, q3⟩, p1 ++ p2⟩]).makeSubset ⟨q1, q3⟩ =
      ⟨[⟨⟨q1, q3⟩, p1 ++ p2⟩]⟩ := by
    simp only [CurveApprox.makeSubset,
      boundary_normalize_of_normalized _ hb13, List.filter_cons,
      List.filter_nil, htouch13, if_true, List.map_cons, List.map_nil,
      clipSegment]
    rw [List.filter_eq_self.mpr hkeep, max_self, min_self]
  rw [hstep2]
  simp only [CurveApproxCache.get, hentry2, hsub, hb13, if_true]

/-- Witness for C4 at the concrete input of the claim: inserting
boundary [0, 0.5] with point 0.25, then boundary [0.5, 1] with point
0.75, makes get over [0,1] return the single merged segment. -/
theorem c4_adjacent_insert_merges_witness :
    ((CurveApproxCache.empty.insert 0 ⟨⟨0, 0.5⟩, [pt 0.25]⟩).2.insert 0
        ⟨⟨0.5, 1⟩, [pt 0.75]⟩).2.get 0 ⟨0, 1⟩ =
      some ⟨[⟨⟨0, 1⟩, [pt 0.25] ++ [pt 0.75]⟩]⟩ :=
  c4_adjacent_insert_merges CurveApproxCache.empty 0 0 0.5 1
    [pt 0.25] [pt 0.75]
    (by with_unfolding_all decide)
    (by with_unfolding_all decide)
    (by with_unfolding_all decide)
    (by with_unfolding_all decide)
    (by with_unfolding_all decide)
    (by with_unfolding_all decide)

end Fornjot
